import Mathlib

/-!
Verification of the dlog commit-log storage engine (package internal/log).

The Go source is shallowly embedded: byte slices become `List Nat` (each
element a byte value), `uint64`/`uint32` arithmetic is `Nat` with explicit
`% 2^64` / `% 2^32` where overflow or truncation can occur, and fallible
operations return `Except GoErr`.  Mutation through pointers is made
explicit by returning the updated state.
-/

/-- Errors surfaced by the storage engine.  The Go code returns `io.EOF`
(here `.eof`) from both the index and short reads of the store,
`api.ErrOffsetOutOfRange` (here `.outOfRange`) from `Log.Read`, and
other operating-system errors (here `.osErr`) from the file layer. -/
inductive GoErr where
  | eof
  | outOfRange
  | osErr
deriving DecidableEq, Repr

/-- Big-endian encoding of a `uint64` value into 8 bytes, as done by
`binary.BigEndian.PutUint64` / `binary.Write(..., uint64(..))`. -/
def toBE64 (n : Nat) : List Nat :=
  [n / 2 ^ 56 % 256, n / 2 ^ 48 % 256, n / 2 ^ 40 % 256, n / 2 ^ 32 % 256,
   n / 2 ^ 24 % 256, n / 2 ^ 16 % 256, n / 2 ^ 8 % 256, n % 256]

/-- Big-endian decoding of the first 8 bytes, as done by
`binary.BigEndian.Uint64`.  Go panics when fewer than 8 bytes are
available; that case is unreachable behind the bounds checks of the
callers, and the embedding totalizes it to 0. -/
def fromBE64 : List Nat → Nat
  | b0 :: b1 :: b2 :: b3 :: b4 :: b5 :: b6 :: b7 :: _ =>
      ((((((b0 * 256 + b1) * 256 + b2) * 256 + b3) * 256 + b4) * 256 + b5) * 256 + b6) * 256
        + b7
  | _ => 0

/-- Big-endian encoding of a `uint32` value into 4 bytes
(`binary.BigEndian.PutUint32`). -/
def toBE32 (n : Nat) : List Nat :=
  [n / 2 ^ 24 % 256, n / 2 ^ 16 % 256, n / 2 ^ 8 % 256, n % 256]

/-- Big-endian decoding of the first 4 bytes (`binary.BigEndian.Uint32`). -/
def fromBE32 : List Nat → Nat
  | b0 :: b1 :: b2 :: b3 :: _ => ((b0 * 256 + b1) * 256 + b2) * 256 + b3
  | _ => 0

theorem toBE64_length (n : Nat) : (toBE64 n).length = 8 := rfl

theorem toBE32_length (n : Nat) : (toBE32 n).length = 4 := rfl

theorem fromBE64_toBE64 (n : Nat) (rest : List Nat) :
    fromBE64 (toBE64 n ++ rest) = n % 2 ^ 64 := by
  simp only [toBE64, fromBE64, List.cons_append, List.nil_append]
  omega

theorem fromBE32_toBE32 (n : Nat) (rest : List Nat) :
    fromBE32 (toBE32 n ++ rest) = n % 2 ^ 32 := by
  simp only [toBE32, fromBE32, List.cons_append, List.nil_append]
  omega

/-- Overwrite the bytes of `l` starting at `pos` with `bs`, as a shared
memory-mapped write `copy(mmap[pos:pos+len(bs)], bs)` does.  The callers
only use it with `pos + bs.length ≤ l.length`. -/
def listWrite (l : List Nat) (pos : Nat) (bs : List Nat) : List Nat :=
  l.take pos ++ bs ++ l.drop (pos + bs.length)

/-- POSIX `truncate`/`os.Truncate` semantics on file contents: the file
size becomes exactly `n`; the file is zero-padded when growing and cut
when shrinking. -/
def goTruncate (content : List Nat) (n : Nat) : List Nat :=
  content.take n ++ List.replicate (n - content.length) 0

theorem goTruncate_length (content : List Nat) (n : Nat) :
    (goTruncate content n).length = n := by
  simp [goTruncate]
  omega

/-- The result of `os.File.ReadAt(buf, off)` with `len(buf) = count`:
the bytes `[off, off+count)` of the file on success, and `io.EOF` when
the file is too short to fill the buffer. -/
def readAt (file : List Nat) (off count : Nat) : Except GoErr (List Nat) :=
  if off + count ≤ file.length then Except.ok ((file.drop off).take count)
  else Except.error GoErr.eof

/-! ## Store (src/internal/log/store.go)

A `store` owns an `*os.File`, a `bufio.Writer` on it, and the tracked
`size`.  The file and the pending buffer are embedded as byte lists; the
sticky error of the buffered writer (a failure of the underlying file
writes) is embedded as the flag `bufErr`. -/

/-- The width of the length header (Go constant `limit` = 8). -/
def limit : Nat := 8

structure Store where
  file : List Nat
  buffer : List Nat
  size : Nat
  bufErr : Bool
deriving DecidableEq, Repr

/-- newStore: records the file's current size (`os.Stat`) and wraps the
file in a fresh buffered writer. -/
def newStore (content : List Nat) : Store :=
  { file := content, buffer := [], size := content.length, bufErr := false }

/-- A write through the `bufio.Writer`: the bytes are buffered; the
write fails when the writer's sticky error is set. -/
def bufWrite (s : Store) (bs : List Nat) : Except GoErr Store :=
  if s.bufErr then Except.error GoErr.osErr
  else Except.ok { s with buffer := s.buffer ++ bs }

/-- store.Append: remembers `pos := size`, writes the 8-byte big-endian
length of `p` and then `p` itself through the buffered writer, and only
then advances `size` by `len(p) + limit` (a `uint64` addition).  Returns
`(written, pos)` on success; on error the store is returned as mutated
so far (its `size` untouched). -/
def storeAppend (s : Store) (p : List Nat) : Except GoErr (Nat × Nat) × Store :=
  let pos := s.size
  match bufWrite s (toBE64 p.length) with
  | Except.error e => (Except.error e, s)
  | Except.ok s1 =>
    match bufWrite s1 p with
    | Except.error e => (Except.error e, s1)
    | Except.ok s2 =>
      let w := p.length + limit
      (Except.ok (w, pos), { s2 with size := (s2.size + w) % 2 ^ 64 })

/-- store.Read: flushes the buffered writer into the file (which fails
when the writer's sticky error is set), reads the 8-byte length header
at `pos`, then reads that many bytes at `pos + limit`. -/
def storeRead (s : Store) (pos : Nat) : Except GoErr (List Nat) × Store :=
  if s.bufErr then (Except.error GoErr.osErr, s)
  else
    let f : Store := { s with file := s.file ++ s.buffer, buffer := [] }
    match readAt f.file pos limit with
    | Except.error e => (Except.error e, f)
    | Except.ok szb =>
      match readAt f.file (pos + limit) (fromBE64 szb) with
      | Except.error e => (Except.error e, f)
      | Except.ok b => (Except.ok b, f)

/-! ## Index (index.go, embedded inside src/internal/log/log_test.go)

An `index` owns an `*os.File` and a shared (MAP_SHARED) read-write
memory map of it.  While the index is open, the mapped bytes are the
file's contents, so the state is the mapped byte list plus the logical
`size`.  `uint64` arithmetic carries an explicit `% 2^64`, and the
`uint32` casts an explicit `% 2^32`. -/

/-- Width of the relative-offset field of an index entry (Go var
`offsetWidth`). -/
def offsetWidth : Nat := 4

/-- Width of the position field of an index entry (Go var `posWidth`). -/
def posWidth : Nat := 8

/-- Width of one index entry (Go var `entryWidth` = 12). -/
def entryWidth : Nat := offsetWidth + posWidth

structure IndexState where
  mmap : List Nat
  size : Nat
deriving DecidableEq, Repr

/-- Configuration (Go `Config`): the three recognized options under
`Config.Segment` are flattened into one record. -/
structure Config where
  maxStoreBytes : Nat
  maxIndexBytes : Nat
  initialOffset : Nat
deriving DecidableEq, Repr

/-- The file contents produced by the `os.Truncate(f.Name(), MaxIndexBytes)`
call of newIndex: the file is set to exactly `MaxIndexBytes` bytes. -/
def newIndexFile (content : List Nat) (maxIndexBytes : Nat) : List Nat :=
  goTruncate content maxIndexBytes

/-- newIndex: records the file's current size as the logical `size`,
truncates the file to `MaxIndexBytes`, and memory-maps the whole file
(read+write, shared), so the mapped length is `MaxIndexBytes`. -/
def newIndex (content : List Nat) (c : Config) : IndexState :=
  { mmap := newIndexFile content c.maxIndexBytes, size := content.length }

/-- index.Write: fails with `io.EOF` when the map has no room for one
more entry (`len(mmap) < size + entryWidth`, a `uint64` comparison),
otherwise writes the 4-byte big-endian relative offset and the 8-byte
big-endian position at `[size, size+entryWidth)` and advances `size`.
Nothing is mutated on the failing path. -/
def indexWrite (i : IndexState) (off pos : Nat) : Except GoErr IndexState :=
  if i.mmap.length < (i.size + entryWidth) % 2 ^ 64 then Except.error GoErr.eof
  else
    let m1 := listWrite i.mmap i.size (toBE32 off)
    let m2 := listWrite m1 (i.size + offsetWidth) (toBE64 pos)
    Except.ok { mmap := m2, size := (i.size + entryWidth) % 2 ^ 64 }

/-- index.Read: fails with `io.EOF` on an empty index; decodes the
sentinel `-1` to the last entry's slot `uint32(size/entryWidth - 1)`
(computed in `uint64`, then truncated to `uint32`), and any other
argument through the Go `uint32(offset)` cast; fails with `io.EOF` when
the requested slot lies past `size`; otherwise decodes the two
big-endian fields of the slot.  (Go would panic if the slot fit below
`size` but exceeded the mapped length; the totalized decoding below
returns junk there, and every caller stays within the map.) -/
def indexRead (i : IndexState) (offset : Int) : Except GoErr (Nat × Nat) :=
  if i.size = 0 then Except.error GoErr.eof
  else
    let output : Nat :=
      if offset = -1 then (i.size / entryWidth + (2 ^ 64 - 1)) % 2 ^ 64 % 2 ^ 32
      else (offset % (2 ^ 32 : Int)).toNat
    let pos := output * entryWidth % 2 ^ 64
    if i.size < (pos + entryWidth) % 2 ^ 64 then Except.error GoErr.eof
    else
      let out2 := fromBE32 ((i.mmap.drop pos).take offsetWidth)
      let pos2 := fromBE64 ((i.mmap.drop (pos + offsetWidth)).take posWidth)
      Except.ok (out2, pos2)

/-- index.Close: syncs the memory map (`mmap.Sync(MS_SYNC)`), fsyncs the
file (`file.Sync()`) — neither changes the contents — then truncates the
file back to the logical `size` and closes it.  The value is the
resulting on-disk file contents. -/
def indexCloseFile (i : IndexState) : List Nat :=
  goTruncate i.mmap i.size

/-- Applies a sequence of index.Write calls in order, also counting how
many of them succeeded (a failed write leaves the index unchanged). -/
def indexWriteMany (i : IndexState) : List (Nat × Nat) → IndexState × Nat
  | [] => (i, 0)
  | (off, pos) :: rest =>
    match indexWrite i off pos with
    | Except.error _ => indexWriteMany i rest
    | Except.ok i2 =>
      let r := indexWriteMany i2 rest
      (r.1, r.2 + 1)

/-! ## Segment

Modelled from the spec: segment.go is not under src/ (only its callers
in log.go and the spec sections 3 and 4.3 describe it).  A segment binds
one store and one index under a `baseOffset` and knows the `nextOffset`
to assign. -/

/-- A record (api.Record): an opaque payload plus its assigned absolute
offset.  Modelled from the spec: the api package is not under src/; the
payload is opaque to the core (spec 6.2), so the protobuf serialization
is modelled as the identity on the payload bytes. -/
structure GoRecord where
  value : List Nat
  offset : Nat
deriving DecidableEq, Repr

/-- Modelled from the spec: proto.Marshal of a record, identity on the
opaque payload bytes (spec 6.2). -/
def marshalRec (r : GoRecord) : List Nat :=
  r.value

structure Segment where
  baseOffset : Nat
  nextOffset : Nat
  store : Store
  index : IndexState
deriving DecidableEq, Repr

/-- Modelled from the spec (4.3): segment.append assigns
`offset := nextOffset`, appends the serialized record to the store,
writes `(uint32(nextOffset - baseOffset), pos)` to the index, and
increments `nextOffset` (a `uint64`).  An error from either child is
surfaced and `nextOffset` is not advanced; the store mutation that
already happened is kept. -/
def segAppend (s : Segment) (rec : GoRecord) : Except GoErr Nat × Segment :=
  let off := s.nextOffset
  match storeAppend s.store (marshalRec rec) with
  | (Except.error e, st) => (Except.error e, { s with store := st })
  | (Except.ok (_, pos), st) =>
    match indexWrite s.index ((s.nextOffset - s.baseOffset) % 2 ^ 32) pos with
    | Except.error e => (Except.error e, { s with store := st })
    | Except.ok ix =>
      (Except.ok off,
       { s with store := st, index := ix, nextOffset := (s.nextOffset + 1) % 2 ^ 64 })

/-- Modelled from the spec (4.3): segment.read computes the relative
offset, resolves it through the index, reads the frame from the store,
and returns the record with its `offset` field set to the absolute
offset.  (It is only ever called with `baseOffset ≤ offset`.) -/
def segRead (s : Segment) (off : Nat) : Except GoErr GoRecord × Segment :=
  match indexRead s.index ((off - s.baseOffset : Nat) : Int) with
  | Except.error e => (Except.error e, s)
  | Except.ok (_, pos) =>
    match storeRead s.store pos with
    | (Except.error e, st) => (Except.error e, { s with store := st })
    | (Except.ok bs, st) => (Except.ok { value := bs, offset := off }, { s with store := st })

/-- Modelled from the spec (4.3): segment.IsMaxed is true when the store
size reached MaxStoreBytes or the index size reached MaxIndexBytes. -/
def segIsMaxed (c : Config) (s : Segment) : Bool :=
  decide (c.maxStoreBytes ≤ s.store.size) || decide (c.maxIndexBytes ≤ s.index.size)

/-- Modelled from the spec (4.3): newSegment on fresh files (the
roll-over path creates `<off>.store` and `<off>.index` anew): the store
starts empty, the index starts empty and pre-grown to MaxIndexBytes, and
`index.read(-1)` failing empty makes `nextOffset := baseOffset`. -/
def freshSegment (c : Config) (off : Nat) : Segment :=
  { baseOffset := off, nextOffset := off,
    store := newStore [], index := newIndex [] c }

/-! ## Log (src/internal/log/log.go) -/

structure LogS where
  config : Config
  segments : List Segment
deriving DecidableEq, Repr

/-- Log.newSegment: creates a segment at `off`, appends it to the
segment list and makes it the active segment.  The Go `activeSegment`
field always holds the last element of `segments`, so the embedding
keeps only the list. -/
def logNewSegment (l : LogS) (off : Nat) : LogS :=
  { l with segments := l.segments ++ [freshSegment l.config off] }

/-- The scan of Log.Read: find the first segment with
`baseOffset ≤ offset < nextOffset`; with none found (or the found one
failing the residual `s.nextOffset <= offset` check of log.go) the
result is ErrOffsetOutOfRange, otherwise the read delegates to the
found segment (whose store is mutated by the flush inside its read). -/
def logReadAux (off : Nat) : List Segment → Except GoErr GoRecord × List Segment
  | [] => (Except.error GoErr.outOfRange, [])
  | s :: rest =>
    if s.baseOffset ≤ off ∧ off < s.nextOffset then
      if s.nextOffset ≤ off then (Except.error GoErr.outOfRange, s :: rest)
      else
        let r := segRead s off
        (r.1, r.2 :: rest)
    else
      let r := logReadAux off rest
      (r.1, s :: r.2)

/-- Log.Read (log.go, lines 212-229). -/
def logRead (l : LogS) (off : Nat) : Except GoErr GoRecord × LogS :=
  let r := logReadAux off l.segments
  (r.1, { l with segments := r.2 })

/-- Log.Append (log.go, lines 196-210): delegate to the active segment
(the last of the list; Go would dereference nil on an empty list, which
the embedding maps to an error), then roll over to a fresh segment at
`offset + 1` when the active segment reports IsMaxed. -/
def logAppend (l : LogS) (rec : GoRecord) : Except GoErr Nat × LogS :=
  match l.segments.getLast? with
  | none => (Except.error GoErr.osErr, l)
  | some s =>
    match segAppend s rec with
    | (Except.error e, s1) =>
      (Except.error e, { l with segments := l.segments.dropLast ++ [s1] })
    | (Except.ok off, s1) =>
      let l1 : LogS := { l with segments := l.segments.dropLast ++ [s1] }
      if segIsMaxed l.config s1 then (Except.ok off, logNewSegment l1 ((off + 1) % 2 ^ 64))
      else (Except.ok off, l1)

/-- The contiguity invariant of the segment list: each consecutive pair
satisfies `S_next.baseOffset = S.nextOffset` (spec section 3). -/
def SegChain (l : List Segment) : Prop :=
  List.Chain' (fun s t => t.baseOffset = s.nextOffset) l

/-! ## Log.setup (log.go, lines 144-182): segment discovery -/

/-- path.Ext: the suffix of the name beginning at the final dot, empty
when there is no dot.  (File names inside one directory contain no
slash, so the slash handling of path.Ext never fires here.) -/
def goExt (s : List Char) : List Char :=
  match s.reverse.findIdx? (fun c => c = '.') with
  | none => []
  | some k => s.drop (s.length - 1 - k)

/-- strings.TrimSuffix: removes the suffix when present. -/
def goTrimSuffix (s suf : List Char) : List Char :=
  if List.isSuffixOf suf s then s.take (s.length - suf.length) else s

/-- The digit-accumulation loop of strconv.ParseUint, base 10. -/
def parseUintVal (s : List Char) : Nat :=
  s.foldl (fun acc c => acc * 10 + (c.toNat - 48)) 0

/-- strconv.ParseUint(s, 10, 0): the value of a non-empty all-digit
string (clamped to the largest uint64 on range overflow, which ParseUint
returns alongside ErrRange); every other input is a syntax error and
yields 0.  log.setup ignores the returned error, so only these values
matter. -/
def goParseUint10 (s : List Char) : Nat :=
  if !s.isEmpty && s.all Char.isDigit then
    if parseUintVal s < 2 ^ 64 then parseUintVal s else 2 ^ 64 - 1
  else 0

/-- The candidate base offset that log.setup parses out of one file
name: strip the extension, then parse the rest as a decimal uint64. -/
def parseBase (name : String) : Nat :=
  goParseUint10 (goTrimSuffix name.data (goExt name.data))

/-- The `for i := 0; i < len; i++ { use b[i]; i++ }` loop of log.setup:
the extra `i++` in the body makes it use indices 0, 2, 4, ... -/
def strideEveryOther : List Nat → List Nat
  | [] => []
  | [x] => [x]
  | x :: _ :: rest => x :: strideEveryOther rest

/-- Log.setup projected onto the sequence of base offsets for which
segments are instantiated, in instantiation order (the last of the list
becomes the active segment, since Log.newSegment marks each created
segment active in turn): parse every directory entry, sort ascending
(sort.Slice on Nat values is embedded as insertion sort — any correct
sort yields the same value sequence), open every other entry, and fall
back to a single segment at `Config.Segment.InitialOffset` when the
segment list stayed empty. -/
def setupBaseOffsets (listing : List String) (initialOffset : Nat) : List Nat :=
  let baseOffsets := listing.map parseBase
  let sorted := List.insertionSort (· ≤ ·) baseOffsets
  let opened := strideEveryOther sorted
  if opened.isEmpty then [initialOffset] else opened

/-- Each element doubled in place: the parsed multiset of a directory
holding exactly the files `<b>.store` and `<b>.index` per base offset. -/
def pairDup : List Nat → List Nat
  | [] => []
  | b :: t => b :: b :: pairDup t

/-! ## Claims -/

/-- C1: Store append/read round-trip.  For every byte payload `p`, if
store.Append(p) succeeds returning `(n, pos)`, then `n = 8 + len(p)`,
`pos` is the store's size before the append, the size afterwards is
`pos + n`, and a subsequent store.Read(pos) returns exactly `p`.  The
store is assumed consistent (`size` equals file plus pending buffer, as
newStore establishes) and away from the astronomically remote `uint64`
wrap of `size`. -/
theorem store_append_read_roundtrip (s : Store) (p : List Nat) (n pos : Nat) (s' : Store)
    (hinv : s.size = s.file.length + s.buffer.length)
    (hov : s.size + 8 + p.length < 2 ^ 64)
    (h : storeAppend s p = (Except.ok (n, pos), s')) :
    n = 8 + p.length ∧ pos = s.size ∧ s'.size = pos + n ∧
      (storeRead s' pos).1 = Except.ok p := by
  by_cases hb : s.bufErr
  · simp [storeAppend, bufWrite, hb] at h
  · simp only [storeAppend, bufWrite, hb, Bool.false_eq_true, if_false, limit,
      Prod.mk.injEq, Except.ok.injEq] at h
    obtain ⟨⟨hn, hpos⟩, hs'⟩ := h
    have hmod : (s.size + (p.length + 8)) % 2 ^ 64 = s.size + (p.length + 8) :=
      Nat.mod_eq_of_lt (by omega)
    refine ⟨by omega, hpos.symm, ?_, ?_⟩
    · rw [← hs']
      simp only [hmod]
      omega
    · rw [← hs', ← hpos]
      have hfile :
        s.file ++ (s.buffer ++ toBE64 p.length ++ p) =
          (s.file ++ s.buffer) ++ (toBE64 p.length ++ p) := by
        simp [List.append_assoc]
      have hlen : s.size = (s.file ++ s.buffer).length := by
        simp [hinv]
      have h8 : s.size + limit ≤ ((s.file ++ s.buffer) ++ (toBE64 p.length ++ p)).length := by
        simp [limit, toBE64_length, hinv]
        omega
      have hdrop : (((s.file ++ s.buffer) ++ (toBE64 p.length ++ p)).drop s.size) =
          toBE64 p.length ++ p := by
        rw [hlen, List.drop_left]
      have htake : (toBE64 p.length ++ p).take limit = toBE64 p.length := by
        have h0 := List.take_left (toBE64 p.length) p
        rw [toBE64_length] at h0
        exact h0
      have hdec : fromBE64 (toBE64 p.length) = p.length := by
        have h0 := fromBE64_toBE64 p.length []
        rw [List.append_nil] at h0
        rw [h0]
        exact Nat.mod_eq_of_lt (by omega)
      have h9 : s.size + limit + p.length ≤
          ((s.file ++ s.buffer) ++ (toBE64 p.length ++ p)).length := by
        simp [limit, toBE64_length, hinv]
        omega
      have hdrop2 : (((s.file ++ s.buffer) ++ (toBE64 p.length ++ p)).drop (s.size + limit)) =
          p := by
        have hassoc : (s.file ++ s.buffer) ++ (toBE64 p.length ++ p) =
            ((s.file ++ s.buffer) ++ toBE64 p.length) ++ p := by
          simp [List.append_assoc]
        rw [hassoc]
        have hlen2 : s.size + limit = ((s.file ++ s.buffer) ++ toBE64 p.length).length := by
          simp [limit, toBE64_length, hinv]
          omega
        rw [hlen2, List.drop_left]
      simp only [storeRead, hb, Bool.false_eq_true, if_false, readAt, hfile, hdrop, htake,
        hdec, h8, h9, if_true, hdrop2, List.take_length]

/-- Concrete instantiation of the C1 theorem: appending the one-byte
payload 42 to a fresh empty store. -/
def c1Store : Store :=
  { file := [], buffer := [0, 0, 0, 0, 0, 0, 0, 1, 42], size := 9, bufErr := false }

theorem store_append_read_roundtrip_witness :
    9 = 8 + ([42] : List Nat).length ∧ 0 = (newStore []).size ∧ c1Store.size = 0 + 9 ∧
      (storeRead c1Store 0).1 = Except.ok [42] :=
  store_append_read_roundtrip (newStore []) [42] 9 0 c1Store (by decide) (by decide) rfl

/-- C10: store.Append advances the tracked `size` only after both the
length header and the payload were accepted by the buffered writer, so
on every error return the store's `size` field is unchanged. -/
theorem store_append_error_size_unchanged (s : Store) (p : List Nat) (e : GoErr)
    (h : (storeAppend s p).1 = Except.error e) :
    (storeAppend s p).2.size = s.size := by
  by_cases hb : s.bufErr
  · simp [storeAppend, bufWrite, hb]
  · simp [storeAppend, bufWrite, hb] at h

/-- Concrete instantiation of the C10 theorem: a store whose buffered
writer carries a sticky error rejects the append and keeps size 3. -/
def c10Store : Store :=
  { file := [9, 9, 9], buffer := [], size := 3, bufErr := true }

theorem store_append_error_size_unchanged_witness :
    (storeAppend c10Store [1]).2.size = c10Store.size :=
  store_append_error_size_unchanged c10Store [1] GoErr.osErr rfl

/-- Length of a within-bounds mapped write. -/
theorem listWrite_length (l : List Nat) (pos : Nat) (bs : List Nat)
    (h : pos + bs.length ≤ l.length) : (listWrite l pos bs).length = l.length := by
  simp [listWrite]
  omega

/-- A mapped write positioned right after a known block: overwrite the
front of `tail`. -/
theorem listWrite_at_append (A tail bs : List Nat) :
    listWrite (A ++ tail) A.length bs = A ++ bs ++ tail.drop bs.length := by
  simp only [listWrite, List.take_left]
  rw [List.drop_append]

/-- The successful branch of index.Write in canonical form: the two
big-endian fields replace the bytes `[size, size+entryWidth)` of the
map. -/
theorem indexWrite_ok_form (i : IndexState) (off pos : Nat)
    (hov : i.size + entryWidth < 2 ^ 64) (hroom : i.size + entryWidth ≤ i.mmap.length) :
    indexWrite i off pos =
      Except.ok
        { mmap := i.mmap.take i.size ++ toBE32 off ++ toBE64 pos ++
            i.mmap.drop (i.size + entryWidth),
          size := i.size + entryWidth } := by
  have hmod : (i.size + entryWidth) % 2 ^ 64 = i.size + entryWidth := Nat.mod_eq_of_lt hov
  have hew : entryWidth = 12 := rfl
  have hsz : i.size ≤ i.mmap.length := by omega
  have htk : (i.mmap.take i.size).length = i.size := by
    rw [List.length_take]
    omega
  have hsplit : i.mmap = i.mmap.take i.size ++ i.mmap.drop i.size :=
    (List.take_append_drop i.size i.mmap).symm
  have key1 : listWrite i.mmap i.size (toBE32 off) =
      (i.mmap.take i.size ++ toBE32 off) ++ i.mmap.drop (i.size + 4) := by
    have k := listWrite_at_append (i.mmap.take i.size) (i.mmap.drop i.size) (toBE32 off)
    rw [htk, ← hsplit, toBE32_length, List.drop_drop] at k
    exact k
  have hm1len : ((i.mmap.take i.size ++ toBE32 off)).length = i.size + 4 := by
    simp [htk, toBE32_length]
  have key2 :
      listWrite ((i.mmap.take i.size ++ toBE32 off) ++ i.mmap.drop (i.size + 4))
          (i.size + 4) (toBE64 pos) =
        ((i.mmap.take i.size ++ toBE32 off) ++ toBE64 pos) ++ i.mmap.drop (i.size + 12) := by
    have k := listWrite_at_append (i.mmap.take i.size ++ toBE32 off)
      (i.mmap.drop (i.size + 4)) (toBE64 pos)
    rw [hm1len, toBE64_length, List.drop_drop] at k
    have h48 : i.size + 4 + 8 = i.size + 12 := by omega
    rw [h48] at k
    exact k
  simp only [indexWrite, hmod]
  rw [if_neg (by omega)]
  have h4 : offsetWidth = 4 := rfl
  rw [h4, key1, key2]
  rw [hew]

/-- C7: index.Write fails with the no-space error exactly when
`size + entryWidth` exceeds the mapped length (leaving the state — in
particular `size` — untouched, as the Go code returns before any
mutation), and otherwise writes the 4-byte big-endian relative offset
and the 8-byte big-endian position at bytes `[size, size+12)` of the
map and advances `size` by 12.  The hypothesis keeps the `uint64`
addition `size + entryWidth` away from its wrap-around. -/
theorem index_write_spec (i : IndexState) (off pos : Nat)
    (hov : i.size + entryWidth < 2 ^ 64) :
    (i.mmap.length < i.size + entryWidth → indexWrite i off pos = Except.error GoErr.eof) ∧
    (i.size + entryWidth ≤ i.mmap.length →
      indexWrite i off pos =
        Except.ok
          { mmap := i.mmap.take i.size ++ toBE32 off ++ toBE64 pos ++
              i.mmap.drop (i.size + entryWidth),
            size := i.size + entryWidth }) := by
  have hmod : (i.size + entryWidth) % 2 ^ 64 = i.size + entryWidth := Nat.mod_eq_of_lt hov
  constructor
  · intro h
    simp only [indexWrite, hmod]
    rw [if_pos h]
  · intro h
    exact indexWrite_ok_form i off pos hov h

theorem index_write_spec_witness :
    ((List.replicate 24 0 : List Nat).length < 0 + entryWidth →
      indexWrite { mmap := List.replicate 24 0, size := 0 } 5 7 = Except.error GoErr.eof) ∧
    (0 + entryWidth ≤ (List.replicate 24 0 : List Nat).length →
      indexWrite { mmap := List.replicate 24 0, size := 0 } 5 7 =
        Except.ok
          { mmap := (List.replicate 24 0 : List Nat).take 0 ++ toBE32 5 ++ toBE64 7 ++
              (List.replicate 24 0 : List Nat).drop (0 + entryWidth),
            size := 0 + entryWidth }) :=
  index_write_spec { mmap := List.replicate 24 0, size := 0 } 5 7 (by decide)

/-- C5 counterexample: a 3-byte index file opened with MaxIndexBytes = 2
is shrunk by newIndex (os.Truncate sets the exact size), so its length
is not left unchanged although it was already at least MaxIndexBytes. -/
theorem newIndex_grow_only_counterexample :
    (newIndexFile [0, 0, 0] 2).length ≠ ([0, 0, 0] : List Nat).length := by decide

/-- C5 amended: index construction physically truncates the file to
exactly MaxIndexBytes before memory-mapping — its length is increased
(with zero padding) when smaller, left unchanged when equal, and shrunk
when larger. -/
theorem newIndex_truncates_to_max (content : List Nat) (maxIndexBytes : Nat) :
    (newIndexFile content maxIndexBytes).length = maxIndexBytes ∧
    (content.length ≤ maxIndexBytes →
      newIndexFile content maxIndexBytes =
        content ++ List.replicate (maxIndexBytes - content.length) 0) := by
  refine ⟨goTruncate_length content maxIndexBytes, fun h => ?_⟩
  simp [newIndexFile, goTruncate, List.take_of_length_le h]

theorem newIndex_truncates_to_max_witness :
    (newIndexFile [7] 3).length = 3 ∧
      newIndexFile [7] 3 = [7] ++ List.replicate (3 - ([7] : List Nat).length) 0 :=
  ⟨(newIndex_truncates_to_max [7] 3).1, (newIndex_truncates_to_max [7] 3).2 (by decide)⟩

/-- C9 counterexample: on the concrete empty, zero-capacity index, the
error value of index.Write without room and the error value of
index.Read on an empty index are both io.EOF, refuting that a caller
can tell the two conditions apart by the error value. -/
theorem index_error_kinds_counterexample :
    ¬ (∀ e1 e2 : GoErr,
        indexWrite { mmap := [], size := 0 } 0 0 = Except.error e1 →
        indexRead { mmap := [], size := 0 } (-1) = Except.error e2 → e1 ≠ e2) := by
  intro h
  exact h GoErr.eof GoErr.eof rfl rfl rfl

/-- C9 amended: index.Write with no room in the map and index.Read on
an empty index both fail with the same error value io.EOF, so the two
conditions cannot be told apart by the returned error value alone. -/
theorem index_full_empty_same_error :
    (∀ (i : IndexState) (off pos : Nat), i.mmap.length < (i.size + entryWidth) % 2 ^ 64 →
      indexWrite i off pos = Except.error GoErr.eof) ∧
    (∀ (i : IndexState) (o : Int), i.size = 0 →
      indexRead i o = Except.error GoErr.eof) := by
  constructor
  · intro i off pos h
    simp only [indexWrite]
    rw [if_pos h]
  · intro i o h
    simp [indexRead, h]

theorem index_full_empty_same_error_witness :
    indexWrite { mmap := [], size := 0 } 0 0 = Except.error GoErr.eof ∧
      indexRead { mmap := [], size := 0 } (-1) = Except.error GoErr.eof :=
  ⟨index_full_empty_same_error.1 { mmap := [], size := 0 } 0 0 (by decide),
   index_full_empty_same_error.2 { mmap := [], size := 0 } (-1) rfl⟩

/-- Lengths and size of a successful index.Write, given that the
`uint64` addition `size + entryWidth` does not wrap. -/
theorem indexWrite_ok_lengths (i : IndexState) (off pos : Nat) (i' : IndexState)
    (hov : i.size + entryWidth < 2 ^ 64)
    (h : indexWrite i off pos = Except.ok i') :
    i'.size = i.size + entryWidth ∧ i'.mmap.length = i.mmap.length ∧
      i.size + entryWidth ≤ i.mmap.length := by
  have hmod : (i.size + entryWidth) % 2 ^ 64 = i.size + entryWidth := Nat.mod_eq_of_lt hov
  by_cases hroom : i.size + entryWidth ≤ i.mmap.length
  · rw [indexWrite_ok_form i off pos hov hroom] at h
    have h' := h
    injection h' with h''
    rw [← h'']
    refine ⟨rfl, ?_, hroom⟩
    have hew : entryWidth = 12 := rfl
    simp only [List.length_append, List.length_take, List.length_drop, toBE32_length,
      toBE64_length]
    omega
  · simp only [indexWrite, hmod] at h
    rw [if_pos (by omega)] at h
    exact absurd h (by simp)

/-- Size/length invariant along any sequence of index.Write calls: the
logical size stays `entryWidth` times the number of entries, stays
within the map, and the mapped length never changes. -/
theorem indexWriteMany_invariant (ws : List (Nat × Nat)) :
    ∀ (i : IndexState) (k : Nat), i.size = entryWidth * k → i.size ≤ i.mmap.length →
      i.mmap.length + entryWidth < 2 ^ 64 →
      (indexWriteMany i ws).1.size = entryWidth * (k + (indexWriteMany i ws).2) ∧
        (indexWriteMany i ws).1.mmap.length = i.mmap.length := by
  induction ws with
  | nil =>
    intro i k hk hle hov
    simpa [indexWriteMany] using hk
  | cons w rest ih =>
    intro i k hk hle hov
    obtain ⟨off, pos⟩ := w
    simp only [indexWriteMany]
    cases hw : indexWrite i off pos with
    | error e =>
      exact ih i k hk hle hov
    | ok i2 =>
      have hov' : i.size + entryWidth < 2 ^ 64 := by omega
      obtain ⟨h1, h2, h3⟩ := indexWrite_ok_lengths i off pos i2 hov' hw
      have hrec := ih i2 (k + 1) (by rw [h1, hk]; ring) (by omega) (by omega)
      refine ⟨?_, by rw [hrec.2, h2]⟩
      rw [hrec.1]
      ring

/-- C6: index.Close syncs the memory map, fsyncs the file, and
truncates the file back to the logical size, so after any sequence of
writes starting from a consistent index with `k` entries, the on-disk
length after Close equals `entryWidth` times the number of valid
entries (`k` plus the successful writes). -/
theorem index_close_ondisk_length (i : IndexState) (k : Nat) (ws : List (Nat × Nat))
    (hk : i.size = entryWidth * k) (hle : i.size ≤ i.mmap.length)
    (hov : i.mmap.length + entryWidth < 2 ^ 64) :
    (indexCloseFile (indexWriteMany i ws).1).length =
      entryWidth * (k + (indexWriteMany i ws).2) := by
  rw [indexCloseFile, goTruncate_length]
  exact (indexWriteMany_invariant ws i k hk hle hov).1

/-- Concrete small configuration used by witnesses (room for exactly
three index entries). -/
def cfgSmall : Config :=
  { maxStoreBytes := 1024, maxIndexBytes := 36, initialOffset := 0 }

theorem index_close_ondisk_length_witness :
    (indexCloseFile (indexWriteMany (newIndex [] cfgSmall)
        [(0, 0), (1, 10), (2, 20)]).1).length =
      entryWidth * (0 + (indexWriteMany (newIndex [] cfgSmall)
        [(0, 0), (1, 10), (2, 20)]).2) :=
  index_close_ondisk_length (newIndex [] cfgSmall) 0 [(0, 0), (1, 10), (2, 20)]
    (by decide) (by decide) (by decide)

/-- C8: index.Read's sentinel and bounds behavior.  (i) Read(-1) on an
empty index fails with the empty-read error io.EOF.  (ii) On a
non-empty, consistent index the sentinel resolves to slot
`size/entryWidth - 1`, so reading -1 right after a successful Write
returns exactly the pair just written.  (iii) For a non-negative
argument `o`, Read(o) fails (io.EOF) whenever `size < entryWidth*o +
entryWidth`. -/
theorem index_read_sentinel :
    (∀ i : IndexState, i.size = 0 → indexRead i (-1) = Except.error GoErr.eof) ∧
    (∀ (i i' : IndexState) (k off pos : Nat),
      i.size = entryWidth * k → k + 1 ≤ 2 ^ 32 → i.size + entryWidth < 2 ^ 64 →
      off < 2 ^ 32 → pos < 2 ^ 64 →
      indexWrite i off pos = Except.ok i' →
      indexRead i' (-1) = Except.ok (off, pos)) ∧
    (∀ (i : IndexState) (o : Nat), o < 2 ^ 32 → i.size < entryWidth * o + entryWidth →
      indexRead i ((o : Nat) : Int) = Except.error GoErr.eof) := by
  have hew : entryWidth = 12 := rfl
  have h4 : offsetWidth = 4 := rfl
  have h8 : posWidth = 8 := rfl
  refine ⟨?_, ?_, ?_⟩
  · intro i h
    simp [indexRead, h]
  · intro i i' k off pos hk hk32 hov hoff hpos hw
    obtain ⟨h1, h2, h3⟩ := indexWrite_ok_lengths i off pos i' hov hw
    rw [indexWrite_ok_form i off pos hov h3] at hw
    injection hw with hw'
    have hAlen : (i.mmap.take i.size).length = i.size := by
      rw [List.length_take]
      omega
    have hM1 : i'.mmap = i.mmap.take i.size ++
        (toBE32 off ++ (toBE64 pos ++ i.mmap.drop (i.size + entryWidth))) := by
      rw [← hw']
      simp [List.append_assoc]
    have hM2 : i'.mmap = (i.mmap.take i.size ++ toBE32 off) ++
        (toBE64 pos ++ i.mmap.drop (i.size + entryWidth)) := by
      rw [← hw']
      simp [List.append_assoc]
    have hdropA : i'.mmap.drop i.size =
        toBE32 off ++ (toBE64 pos ++ i.mmap.drop (i.size + entryWidth)) := by
      rw [hM1, List.drop_left' hAlen]
    have hdropB : i'.mmap.drop (i.size + offsetWidth) =
        toBE64 pos ++ i.mmap.drop (i.size + entryWidth) := by
      rw [hM2, List.drop_left']
      simp [hAlen, toBE32_length, h4]
    have hout : fromBE32 ((i'.mmap.drop i.size).take offsetWidth) = off := by
      rw [hdropA, h4]
      have htk : (toBE32 off ++ (toBE64 pos ++ i.mmap.drop (i.size + entryWidth))).take 4 =
          toBE32 off := by
        have := List.take_left (toBE32 off) (toBE64 pos ++ i.mmap.drop (i.size + entryWidth))
        rw [toBE32_length] at this
        exact this
      rw [htk]
      have := fromBE32_toBE32 off []
      rw [List.append_nil] at this
      rw [this]
      exact Nat.mod_eq_of_lt hoff
    have hposv : fromBE64 ((i'.mmap.drop (i.size + offsetWidth)).take posWidth) = pos := by
      rw [hdropB, h8]
      have htk : (toBE64 pos ++ i.mmap.drop (i.size + entryWidth)).take 8 = toBE64 pos := by
        have := List.take_left (toBE64 pos) (i.mmap.drop (i.size + entryWidth))
        rw [toBE64_length] at this
        exact this
      rw [htk]
      have := fromBE64_toBE64 pos []
      rw [List.append_nil] at this
      rw [this]
      exact Nat.mod_eq_of_lt hpos
    have hsz' : i'.size = entryWidth * (k + 1) := by
      rw [h1, hk]
      ring
    have hq : i'.size / entryWidth = k + 1 := by
      rw [hsz', hew]
      omega
    have houtv : (i'.size / entryWidth + (2 ^ 64 - 1)) % 2 ^ 64 % 2 ^ 32 = k := by
      rw [hq]
      omega
    have hposn : k * entryWidth % 2 ^ 64 = i.size := by
      rw [hew] at hk hov ⊢
      omega
    rw [indexRead]
    rw [if_neg (by rw [hsz', hew]; omega)]
    have hsent : ((-1 : Int) = -1) = True := by simp
    simp only [hsent, if_true, houtv, hposn]
    rw [if_neg (by rw [h1]; omega)]
    rw [hout, hposv]
  · intro i o ho hsz
    by_cases h0 : i.size = 0
    · simp [indexRead, h0]
    · have hne : ((o : Nat) : Int) ≠ -1 := by omega
      have hcast : (((o : Int)) % (2 ^ 32 : Int)).toNat = o := by omega
      rw [indexRead, if_neg h0]
      simp only [if_neg hne, hcast]
      rw [if_pos]
      rw [hew] at hsz
      have : o * entryWidth % 2 ^ 64 = o * 12 := by
        rw [hew]
        have : o * 12 < 2 ^ 64 := by omega
        omega
      rw [this]
      omega

/-- The concrete index state reached by writing the entry (5, 7) into a
fresh 24-byte index. -/
def c8Idx : IndexState :=
  { mmap := [0, 0, 0, 5, 0, 0, 0, 0, 0, 0, 0, 7, 0, 0, 0, 0, 0, 0, 0, 0, 0, 0, 0, 0],
    size := 12 }

theorem index_read_sentinel_witness :
    indexRead { mmap := [], size := 0 } (-1) = Except.error GoErr.eof ∧
      indexRead c8Idx (-1) = Except.ok (5, 7) ∧
      indexRead { mmap := [], size := 0 } ((3 : Nat) : Int) = Except.error GoErr.eof :=
  ⟨index_read_sentinel.1 { mmap := [], size := 0 } rfl,
   index_read_sentinel.2.1 { mmap := List.replicate 24 0, size := 0 } c8Idx 0 5 7
     (by decide) (by decide) (by decide) (by decide) (by decide) rfl,
   index_read_sentinel.2.2 { mmap := [], size := 0 } 3 (by decide) (by decide)⟩

theorem mem_pairDup {x : Nat} : ∀ {xs : List Nat}, x ∈ pairDup xs ↔ x ∈ xs := by
  intro xs
  induction xs with
  | nil => simp [pairDup]
  | cons b t ih => simp [pairDup, ih]

theorem pairDup_perm (xs : List Nat) : (pairDup xs).Perm (xs ++ xs) := by
  induction xs with
  | nil => simp [pairDup]
  | cons b t ih =>
    simp only [pairDup, List.cons_append]
    refine List.Perm.cons b ?_
    exact (List.Perm.cons b ih).trans List.perm_middle.symm

theorem pairDup_sorted {xs : List Nat} (h : xs.Sorted (· ≤ ·)) :
    (pairDup xs).Sorted (· ≤ ·) := by
  induction xs with
  | nil => simp [pairDup]
  | cons b t ih =>
    rw [List.sorted_cons] at h
    obtain ⟨hb, ht⟩ := h
    have iht := ih ht
    simp only [pairDup]
    rw [List.sorted_cons, List.sorted_cons]
    refine ⟨?_, ?_, iht⟩
    · intro x hx
      rcases List.mem_cons.mp hx with h1 | h2
      · omega
      · exact hb x (mem_pairDup.mp h2)
    · intro x hx
      exact hb x (mem_pairDup.mp hx)

theorem stride_pairDup : ∀ ys : List Nat, strideEveryOther (pairDup ys) = ys := by
  intro ys
  induction ys with
  | nil => rfl
  | cons b t ih => simp [pairDup, strideEveryOther, ih]

/-- C3: Log setup (recovery).  For any directory whose entries parse to
exactly two occurrences of each of the (pairwise distinct) base offsets
`bs` — as a listing holding precisely the paired files b.store and
b.index for each b in `bs` does — setup sorts the parsed offsets
ascending and, skipping every other entry, instantiates exactly one
segment per distinct base offset, in ascending order (the last created
segment becomes active); an empty directory yields the single initial
segment at Config.Segment.InitialOffset. -/
theorem log_setup_segment_discovery (listing : List String) (bs : List Nat) (init : Nat)
    (hnd : bs.Nodup) (hne : bs ≠ [])
    (hperm : (listing.map parseBase).Perm (bs ++ bs)) :
    setupBaseOffsets listing init = List.insertionSort (· ≤ ·) bs ∧
      setupBaseOffsets [] init = [init] := by
  constructor
  · have hsorted_bs : (List.insertionSort (· ≤ ·) bs).Sorted (· ≤ ·) :=
      List.sorted_insertionSort _ bs
    have hperm_bs : (List.insertionSort (· ≤ ·) bs).Perm bs := List.perm_insertionSort _ bs
    have hpd_sorted : (pairDup (List.insertionSort (· ≤ ·) bs)).Sorted (· ≤ ·) :=
      pairDup_sorted hsorted_bs
    have hsorted_in :
        (List.insertionSort (· ≤ ·) (listing.map parseBase)).Sorted (· ≤ ·) :=
      List.sorted_insertionSort _ _
    have hperm2 : (List.insertionSort (· ≤ ·) (listing.map parseBase)).Perm
        (pairDup (List.insertionSort (· ≤ ·) bs)) := by
      have step1 : (List.insertionSort (· ≤ ·) (listing.map parseBase)).Perm (bs ++ bs) :=
        (List.perm_insertionSort _ _).trans hperm
      have step2 : (bs ++ bs).Perm
          (List.insertionSort (· ≤ ·) bs ++ List.insertionSort (· ≤ ·) bs) :=
        List.Perm.append hperm_bs.symm hperm_bs.symm
      exact (step1.trans step2).trans (pairDup_perm _).symm
    have heq : List.insertionSort (· ≤ ·) (listing.map parseBase) =
        pairDup (List.insertionSort (· ≤ ·) bs) :=
      List.eq_of_perm_of_sorted hperm2 hsorted_in hpd_sorted
    have hne' : List.insertionSort (· ≤ ·) bs ≠ [] := by
      intro h0
      have := hperm_bs.length_eq
      rw [h0] at this
      exact hne (List.eq_nil_of_length_eq_zero this.symm)
    simp only [setupBaseOffsets, heq, stride_pairDup]
    rw [if_neg (by simp [List.isEmpty_iff, hne'])]
  · rfl

theorem log_setup_segment_discovery_witness :
    setupBaseOffsets [("0.store" : String), "0.index", "2.store", "2.index"] 0 =
        List.insertionSort (· ≤ ·) [2, 0] ∧
      setupBaseOffsets [] 0 = [0] :=
  log_setup_segment_discovery [("0.store" : String), "0.index", "2.store", "2.index"]
    [2, 0] 0 (by decide) (by decide) (by decide)

/-- Facts about a successful (spec-modelled) segment append: the
returned offset is the previous `nextOffset`, the base offset is
untouched, and `nextOffset` advances by one (`uint64`). -/
theorem segAppend_ok (s : Segment) (rec : GoRecord) (off : Nat) (s1 : Segment)
    (h : segAppend s rec = (Except.ok off, s1)) :
    off = s.nextOffset ∧ s1.baseOffset = s.baseOffset ∧
      s1.nextOffset = (s.nextOffset + 1) % 2 ^ 64 := by
  unfold segAppend at h
  rcases hst : storeAppend s.store (marshalRec rec) with ⟨res, st⟩
  rw [hst] at h
  dsimp only at h
  cases res with
  | error e => simp at h
  | ok np =>
    obtain ⟨n, pos⟩ := np
    cases hix : indexWrite s.index ((s.nextOffset - s.baseOffset) % 2 ^ 32) pos with
    | error e =>
      dsimp only at h
      rw [hix] at h
      simp at h
    | ok ix =>
      dsimp only at h
      rw [hix] at h
      simp only [Prod.mk.injEq, Except.ok.injEq] at h
      obtain ⟨h1, h2⟩ := h
      rw [← h2]
      exact ⟨h1.symm, rfl, rfl⟩

/-- C4: roll-over preserves segment contiguity.  If the segment list
satisfies the chain invariant and Log.Append succeeds returning `off`
(through the active — last — segment `s`, whose append produced `s1`),
then the invariant still holds afterwards; and when `s1` reports
IsMaxed, a fresh segment with `baseOffset = off + 1` was appended and
became the active (last) segment. -/
theorem log_append_rollover_contiguity (l : LogS) (rec : GoRecord) (off : Nat) (l' : LogS)
    (s s1 : Segment)
    (hchain : SegChain l.segments)
    (hov : off + 1 < 2 ^ 64)
    (hlast : l.segments.getLast? = some s)
    (hsa : segAppend s rec = (Except.ok off, s1))
    (h : logAppend l rec = (Except.ok off, l')) :
    SegChain l'.segments ∧
      (segIsMaxed l.config s1 = true →
        l'.segments = l.segments.dropLast ++ [s1, freshSegment l.config (off + 1)] ∧
        l'.segments.getLast? = some (freshSegment l.config (off + 1)) ∧
        (freshSegment l.config (off + 1)).baseOffset = off + 1) := by
  obtain ⟨hoff, hbase, hnext⟩ := segAppend_ok s rec off s1 hsa
  have hsplit : l.segments.dropLast ++ [s] = l.segments :=
    List.dropLast_append_getLast? s hlast
  have hmodov : (off + 1) % 2 ^ 64 = off + 1 := Nat.mod_eq_of_lt hov
  have hchain' : SegChain (l.segments.dropLast ++ [s]) := by
    rw [hsplit]
    exact hchain
  rw [SegChain, List.chain'_append] at hchain'
  obtain ⟨hD, _, hlink⟩ := hchain'
  have hlink1 : ∀ x ∈ l.segments.dropLast.getLast?, x.nextOffset = s1.baseOffset := by
    intro x hx
    rw [hbase]
    exact (hlink x hx s rfl).symm
  unfold logAppend at h
  rw [hlast] at h
  dsimp only at h
  rw [hsa] at h
  dsimp only at h
  by_cases hmax : segIsMaxed l.config s1
  · rw [if_pos hmax] at h
    simp only [Prod.mk.injEq, Except.ok.injEq, true_and] at h
    rw [← h]
    have hR : (freshSegment l.config ((off + 1) % 2 ^ 64)).baseOffset = s1.nextOffset := by
      rw [hnext, hoff, freshSegment]
    constructor
    · show SegChain ((l.segments.dropLast ++ [s1]) ++ [freshSegment l.config ((off + 1) % 2 ^ 64)])
      rw [SegChain, List.append_assoc, List.chain'_append]
      refine ⟨hD, ?_, ?_⟩
      · simp only [List.singleton_append]
        rw [List.chain'_pair]
        exact hR
      · intro x hx y hy
        simp only [List.singleton_append, List.head?_cons, Option.mem_def,
          Option.some.injEq] at hy
        rw [← hy]
        exact (hlink1 x hx).symm
    · intro _
      rw [hmodov]
      refine ⟨by simp [logNewSegment, List.append_assoc], ?_, rfl⟩
      simp [logNewSegment]
  · rw [if_neg hmax] at h
    simp only [Prod.mk.injEq, Except.ok.injEq, true_and] at h
    rw [← h]
    constructor
    · show SegChain (l.segments.dropLast ++ [s1])
      rw [SegChain, List.chain'_append]
      refine ⟨hD, List.chain'_singleton s1, ?_⟩
      intro x hx y hy
      simp only [List.head?_cons, Option.mem_def, Option.some.injEq] at hy
      rw [← hy]
      exact (hlink1 x hx).symm
    · intro hmax'
      exact absurd hmax' (by simpa using hmax)

/-- Concrete roll-over scenario: one fresh segment at base 0 with a
1-byte store cap, so the very first append maxes the store. -/
def c4Cfg : Config :=
  { maxStoreBytes := 1, maxIndexBytes := 24, initialOffset := 0 }

def c4Log : LogS :=
  { config := c4Cfg, segments := [freshSegment c4Cfg 0] }

def c4Rec : GoRecord :=
  { value := [], offset := 0 }

/-- The active segment of `c4Log` after appending `c4Rec`. -/
def c4Seg1 : Segment :=
  { baseOffset := 0, nextOffset := 1,
    store := { file := [], buffer := List.replicate 8 0, size := 8, bufErr := false },
    index := { mmap := List.replicate 24 0, size := 12 } }

theorem log_append_rollover_contiguity_witness :
    SegChain (logAppend c4Log c4Rec).2.segments ∧
      (logAppend c4Log c4Rec).2.segments =
        c4Log.segments.dropLast ++ [c4Seg1, freshSegment c4Log.config (0 + 1)] := by
  have h := log_append_rollover_contiguity c4Log c4Rec 0 (logAppend c4Log c4Rec).2
    (freshSegment c4Cfg 0) c4Seg1 (by simp [SegChain, c4Log]) (by decide) rfl rfl rfl
  exact ⟨h.1, (h.2 (by decide)).1⟩

/-- Every failing index.Read returns io.EOF. -/
theorem indexRead_error_eof (i : IndexState) (o : Int) (e : GoErr)
    (h : indexRead i o = Except.error e) : e = GoErr.eof := by
  unfold indexRead at h
  by_cases h0 : i.size = 0
  · rw [if_pos h0] at h
    injection h with h'
    exact h'.symm
  · rw [if_neg h0] at h
    dsimp only at h
    split at h <;> split at h
    · injection h with h'
      exact h'.symm
    · exact absurd h (by simp)
    · injection h with h'
      exact h'.symm
    · exact absurd h (by simp)

/-- Every failing raw read returns io.EOF. -/
theorem readAt_error_eof (f : List Nat) (off c : Nat) (e : GoErr)
    (h : readAt f off c = Except.error e) : e = GoErr.eof := by
  unfold readAt at h
  split at h
  · exact absurd h (by simp)
  · injection h with h'
    exact h'.symm

/-- Every failing store.Read returns io.EOF (short read) or an
operating-system error (failing flush). -/
theorem storeRead_error (s : Store) (pos : Nat) (e : GoErr)
    (h : (storeRead s pos).1 = Except.error e) : e = GoErr.eof ∨ e = GoErr.osErr := by
  unfold storeRead at h
  by_cases hb : s.bufErr
  · rw [if_pos hb] at h
    injection h with h'
    right
    exact h'.symm
  · rw [if_neg hb] at h
    dsimp only at h
    cases h1 : readAt (s.file ++ s.buffer) pos limit with
    | error e1 =>
      rw [h1] at h
      dsimp only at h
      injection h with h'
      left
      rw [← h']
      exact readAt_error_eof _ _ _ _ h1
    | ok szb =>
      rw [h1] at h
      dsimp only at h
      cases h2 : readAt (s.file ++ s.buffer) (pos + limit) (fromBE64 szb) with
      | error e2 =>
        rw [h2] at h
        dsimp only at h
        injection h with h'
        left
        rw [← h']
        exact readAt_error_eof _ _ _ _ h2
      | ok b =>
        rw [h2] at h
        exact absurd h (by simp)

/-- A (spec-modelled) segment read never produces the offset-out-of-range
error value: its failures come from the index or the store, which fail
with io.EOF or an operating-system error. -/
theorem segRead_ne_outOfRange (s : Segment) (off : Nat) :
    (segRead s off).1 ≠ Except.error GoErr.outOfRange := by
  unfold segRead
  cases hi : indexRead s.index (((off - s.baseOffset : Nat)) : Int) with
  | error e =>
    dsimp only
    intro hcon
    injection hcon with h'
    have he := indexRead_error_eof _ _ _ hi
    rw [he] at h'
    exact absurd h' (by simp)
  | ok op =>
    obtain ⟨o2, pos⟩ := op
    dsimp only
    rcases hr : storeRead s.store pos with ⟨res, st⟩
    cases res with
    | error e =>
      dsimp only
      intro hcon
      injection hcon with h'
      have he : (storeRead s.store pos).1 = Except.error e := by
        rw [hr]
      rcases storeRead_error _ _ _ he with h1 | h1 <;> rw [h1] at h' <;>
        exact absurd h' (by simp)
    | ok bs =>
      dsimp only
      simp

/-- One unfolding step of the Log.Read scan. -/
theorem logReadAux_cons (off : Nat) (s : Segment) (rest : List Segment) :
    logReadAux off (s :: rest) =
      if s.baseOffset ≤ off ∧ off < s.nextOffset then
        if s.nextOffset ≤ off then (Except.error GoErr.outOfRange, s :: rest)
        else ((segRead s off).1, (segRead s off).2 :: rest)
      else ((logReadAux off rest).1, s :: (logReadAux off rest).2) := rfl

/-- When no segment of the scanned list contains the offset, the scan of
Log.Read yields the offset-out-of-range error. -/
theorem logReadAux_none (off : Nat) :
    ∀ segs : List Segment, (∀ s ∈ segs, ¬(s.baseOffset ≤ off ∧ off < s.nextOffset)) →
      (logReadAux off segs).1 = Except.error GoErr.outOfRange := by
  intro segs
  induction segs with
  | nil => intro _; rfl
  | cons x rest ih =>
    intro hno
    simp only [logReadAux]
    rw [if_neg (hno x (by simp))]
    exact ih fun s hs => hno s (by simp [hs])

/-- In a contiguous, well-formed segment list, every segment after the
head starts at or after the head's nextOffset. -/
theorem chain_rest_base (x : Segment) :
    ∀ rest : List Segment,
      List.Chain' (fun s t => t.baseOffset = s.nextOffset) (x :: rest) →
      (∀ s ∈ x :: rest, s.baseOffset ≤ s.nextOffset) →
      ∀ t ∈ rest, x.nextOffset ≤ t.baseOffset := by
  intro rest
  induction rest generalizing x with
  | nil =>
    intro _ _ t ht
    simp at ht
  | cons y rest' ih =>
    intro hch hwf t ht
    rw [List.chain'_cons] at hch
    obtain ⟨hxy, hch'⟩ := hch
    rcases List.mem_cons.mp ht with h1 | h2
    · rw [h1, hxy]
    · have h3 := ih y hch' (fun s hs => hwf s (List.mem_cons_of_mem x hs)) t h2
      have h4 : y.baseOffset ≤ y.nextOffset := hwf y (by simp)
      omega

/-- In a contiguous, well-formed segment list, at most one segment's
range contains a given offset. -/
theorem chain_unique_match (off : Nat) :
    ∀ segs : List Segment,
      List.Chain' (fun s t => t.baseOffset = s.nextOffset) segs →
      (∀ s ∈ segs, s.baseOffset ≤ s.nextOffset) →
      ∀ s ∈ segs, s.baseOffset ≤ off → off < s.nextOffset →
      ∀ t ∈ segs, t.baseOffset ≤ off → off < t.nextOffset → t = s := by
  intro segs
  induction segs with
  | nil =>
    intro _ _ s hs
    simp at hs
  | cons x rest ih =>
    intro hch hwf s hs hs1 hs2 t ht ht1 ht2
    have hdom := chain_rest_base x rest hch hwf
    rcases List.mem_cons.mp hs with hsx | hsr
    · rcases List.mem_cons.mp ht with htx | htr
      · rw [htx, hsx]
      · exfalso
        have := hdom t htr
        subst hsx
        omega
    · rcases List.mem_cons.mp ht with htx | htr
      · exfalso
        have := hdom s hsr
        subst htx
        omega
      · have hch' := (List.chain'_cons'.mp hch).2
        exact ih hch' (fun u hu => hwf u (List.mem_cons_of_mem x hu)) s hsr hs1 hs2 t htr
          ht1 ht2

/-- The scan of Log.Read delegates to the segment containing the
offset. -/
theorem logReadAux_delegate (off : Nat) :
    ∀ segs : List Segment,
      List.Chain' (fun s t => t.baseOffset = s.nextOffset) segs →
      (∀ s ∈ segs, s.baseOffset ≤ s.nextOffset) →
      ∀ s ∈ segs, s.baseOffset ≤ off → off < s.nextOffset →
      (logReadAux off segs).1 = (segRead s off).1 := by
  intro segs
  induction segs with
  | nil =>
    intro _ _ s hs
    simp at hs
  | cons x rest ih =>
    intro hch hwf s hs hs1 hs2
    by_cases hx : x.baseOffset ≤ off ∧ off < x.nextOffset
    · have hsx : s = x :=
        chain_unique_match off (x :: rest) hch hwf x (by simp) hx.1 hx.2 s hs hs1 hs2
      simp only [logReadAux]
      rw [if_pos hx, if_neg (by omega)]
      rw [hsx]
    · have hsr : s ∈ rest := by
        rcases List.mem_cons.mp hs with h1 | h2
        · exfalso
          rw [h1] at hs1 hs2
          exact hx ⟨hs1, hs2⟩
        · exact h2
      simp only [logReadAux]
      rw [if_neg hx]
      exact ih ((List.chain'_cons'.mp hch).2)
        (fun u hu => hwf u (List.mem_cons_of_mem x hu)) s hsr hs1 hs2

/-- In a contiguous, well-formed segment list, the head's nextOffset is
at most the last segment's nextOffset. -/
theorem chain_last_next (x : Segment) :
    ∀ rest : List Segment,
      List.Chain' (fun s t => t.baseOffset = s.nextOffset) (x :: rest) →
      (∀ s ∈ x :: rest, s.baseOffset ≤ s.nextOffset) →
      x.nextOffset ≤ ((x :: rest).getLast (by simp)).nextOffset := by
  intro rest
  induction rest generalizing x with
  | nil =>
    intro _ _
    rw [List.getLast_singleton]
  | cons y rest' ih =>
    intro hch hwf
    rw [List.chain'_cons] at hch
    obtain ⟨hxy, hch'⟩ := hch
    have h1 := ih y hch' (fun s hs => hwf s (List.mem_cons_of_mem x hs))
    have h2 : y.baseOffset ≤ y.nextOffset := hwf y (by simp)
    have h3 : ((x :: y :: rest').getLast (by simp)) = ((y :: rest').getLast (by simp)) := rfl
    rw [h3]
    omega

/-- The scan of Log.Read fails exactly outside the global offset range
`[head.baseOffset, last.nextOffset)`. -/
theorem logReadAux_error_iff (off : Nat) :
    ∀ (rest : List Segment) (x : Segment),
      List.Chain' (fun s t => t.baseOffset = s.nextOffset) (x :: rest) →
      (∀ s ∈ x :: rest, s.baseOffset ≤ s.nextOffset) →
      ((logReadAux off (x :: rest)).1 = Except.error GoErr.outOfRange ↔
        (off < x.baseOffset ∨ ((x :: rest).getLast (by simp)).nextOffset ≤ off)) := by
  intro rest
  induction rest with
  | nil =>
    intro x hch hwf
    by_cases hx : x.baseOffset ≤ off ∧ off < x.nextOffset
    · simp only [logReadAux]
      rw [if_pos hx, if_neg (by omega)]
      constructor
      · intro hcon
        exact absurd hcon (segRead_ne_outOfRange x off)
      · intro hcon
        rw [List.getLast_singleton] at hcon
        omega
    · simp only [logReadAux]
      rw [if_neg hx]
      constructor
      · intro _
        rw [List.getLast_singleton]
        omega
      · intro _
        rfl
  | cons y rest' ih =>
    intro x hch hwf
    have hxy : y.baseOffset = x.nextOffset := (List.chain'_cons.mp hch).1
    have hch' : List.Chain' (fun s t => t.baseOffset = s.nextOffset) (y :: rest') :=
      (List.chain'_cons.mp hch).2
    have hwf' : ∀ s ∈ y :: rest', s.baseOffset ≤ s.nextOffset :=
      fun s hs => hwf s (List.mem_cons_of_mem x hs)
    have hlast : ((x :: y :: rest').getLast (by simp)) = ((y :: rest').getLast (by simp)) :=
      rfl
    have hwfx : x.baseOffset ≤ x.nextOffset := hwf x (by simp)
    by_cases hx : x.baseOffset ≤ off ∧ off < x.nextOffset
    · simp only [logReadAux]
      rw [if_pos hx, if_neg (by omega)]
      constructor
      · intro hcon
        exact absurd hcon (segRead_ne_outOfRange x off)
      · intro hcon
        rcases hcon with h1 | h1
        · omega
        · have hmon := chain_last_next y rest' hch' hwf'
          have hwfy : y.baseOffset ≤ y.nextOffset := hwf y (by simp)
          rw [hlast] at h1
          omega
    · rw [logReadAux_cons, if_neg hx]
      dsimp only
      have hrec := ih y hch' hwf'
      rw [hrec, hlast]
      omega

/-- In a contiguous, well-formed segment list, every offset inside the
global range `[head.baseOffset, last.nextOffset)` lies in some
segment's range. -/
theorem chain_exists_match (off : Nat) :
    ∀ (rest : List Segment) (x : Segment),
      List.Chain' (fun s t => t.baseOffset = s.nextOffset) (x :: rest) →
      (∀ s ∈ x :: rest, s.baseOffset ≤ s.nextOffset) →
      x.baseOffset ≤ off → off < ((x :: rest).getLast (by simp)).nextOffset →
      ∃ s ∈ x :: rest, s.baseOffset ≤ off ∧ off < s.nextOffset := by
  intro rest
  induction rest with
  | nil =>
    intro x _ _ h1 h2
    rw [List.getLast_singleton] at h2
    exact ⟨x, by simp, h1, h2⟩
  | cons y rest' ih =>
    intro x hch hwf h1 h2
    by_cases hx : off < x.nextOffset
    · exact ⟨x, by simp, h1, hx⟩
    · have hxy : y.baseOffset = x.nextOffset := (List.chain'_cons.mp hch).1
      have hch' := (List.chain'_cons.mp hch).2
      have hwf' : ∀ s ∈ y :: rest', s.baseOffset ≤ s.nextOffset :=
        fun s hs => hwf s (List.mem_cons_of_mem x hs)
      have h1' : y.baseOffset ≤ off := by omega
      obtain ⟨s, hs, hcond⟩ := ih y hch' hwf' h1' h2
      exact ⟨s, List.mem_cons_of_mem x hs, hcond⟩

/-- C2: Log.Read(offset) fails with OffsetOutOfRange exactly when the
offset lies below the first segment's baseOffset or at/above the last
(active) segment's nextOffset; otherwise some segment's range contains
the offset, the containing segment is unique, and the read delegates to
it (returning that segment's record).  The hypotheses are the segment
invariants that setup, append and roll-over maintain: contiguity and
`baseOffset ≤ nextOffset` per segment. -/
theorem log_read_offset_routing (l : LogS) (off : Nat)
    (hchain : SegChain l.segments)
    (hwf : ∀ s ∈ l.segments, s.baseOffset ≤ s.nextOffset)
    (hne : l.segments ≠ []) :
    ((logRead l off).1 = Except.error GoErr.outOfRange ↔
      (off < (l.segments.head hne).baseOffset ∨
        (l.segments.getLast hne).nextOffset ≤ off)) ∧
    ((l.segments.head hne).baseOffset ≤ off →
      off < (l.segments.getLast hne).nextOffset →
      ∃ s ∈ l.segments, s.baseOffset ≤ off ∧ off < s.nextOffset) ∧
    (∀ s ∈ l.segments, s.baseOffset ≤ off → off < s.nextOffset →
      (logRead l off).1 = (segRead s off).1 ∧
        ∀ t ∈ l.segments, t.baseOffset ≤ off → off < t.nextOffset → t = s) := by
  obtain ⟨x, rest, hl⟩ : ∃ x rest, l.segments = x :: rest := by
    cases hc : l.segments with
    | nil => exact absurd hc hne
    | cons a b => exact ⟨a, b, rfl⟩
  have hchain' : List.Chain' (fun s t => t.baseOffset = s.nextOffset) (x :: rest) := by
    rw [hl] at hchain
    exact hchain
  have hwf' : ∀ s ∈ x :: rest, s.baseOffset ≤ s.nextOffset := by
    rw [hl] at hwf
    exact hwf
  have hfst : (logRead l off).1 = (logReadAux off l.segments).1 := rfl
  refine ⟨?_, ?_, ?_⟩
  · rw [hfst]
    simp only [hl, List.head_cons]
    exact logReadAux_error_iff off rest x hchain' hwf'
  · simp only [hl, List.head_cons]
    intro h1 h2
    exact chain_exists_match off rest x hchain' hwf' h1 h2
  · intro s hs hs1 hs2
    rw [hl] at hs
    constructor
    · rw [hfst]
      simp only [hl]
      exact logReadAux_delegate off (x :: rest) hchain' hwf' s hs hs1 hs2
    · intro t ht ht1 ht2
      rw [hl] at ht
      exact chain_unique_match off (x :: rest) hchain' hwf' s hs hs1 hs2 t ht ht1 ht2

/-- A one-record segment and log for the C2 witness. -/
def c2Seg : Segment :=
  { baseOffset := 0, nextOffset := 1,
    store := { file := [0, 0, 0, 0, 0, 0, 0, 1, 42], buffer := [], size := 9,
               bufErr := false },
    index := { mmap := List.replicate 12 0, size := 12 } }

def c2Log : LogS :=
  { config := cfgSmall, segments := [c2Seg] }

theorem c2SegsNe : c2Log.segments ≠ [] := by
  simp [c2Log]

theorem log_read_offset_routing_witness :
    ((logRead c2Log 0).1 = Except.error GoErr.outOfRange ↔
      (0 < (c2Log.segments.head c2SegsNe).baseOffset ∨
        (c2Log.segments.getLast c2SegsNe).nextOffset ≤ 0)) ∧
      (logRead c2Log 0).1 = (segRead c2Seg 0).1 := by
  have h := log_read_offset_routing c2Log 0
    (by rw [SegChain]; exact List.chain'_singleton c2Seg) (by decide) c2SegsNe
  exact ⟨h.1, (h.2.2 c2Seg (by simp [c2Log]) (by decide) (by decide)).1⟩
